import Mathlib

/-
Shallow embedding of the COLIBRI non-linear power-spectrum engine
(`colibri/nonlinear.py`): the `halofit_operator` constructor checks, the
BAO de-wiggling branch, the halo-statistics helpers (`z_form`, the
`n_eff` root/fallback logic, `u_NFW`, `alp`) and the 1-halo/2-halo
power-spectrum assembler, together with the `nonlinear_pk` CDM
prescription.  Machine floats are modelled as real numbers; numpy
`trapz` is the trapezoidal rule; scipy interpolation and root finding
are modelled as explicit oracles whose failure (the `ValueError` caught
by the source) is an `Option`/domain check.
-/

open Real Filter

open scoped Classical Topology

/-! ### numpy primitives -/

/-- Trapezoidal rule `np.trapz(y, x = xs)`:
sum of `(x_{i+1} - x_i) * (y_i + y_{i+1}) / 2`. -/
noncomputable def trapz : List ℝ → List ℝ → ℝ
  | x1 :: x2 :: xs, y1 :: y2 :: ys =>
      (x2 - x1) * (y1 + y2) / 2 + trapz (x2 :: xs) (y2 :: ys)
  | _, _ => 0
  termination_by xs _ => xs.length

/-- Maximum of a numpy array (`k.max()`), left fold as numpy reduces. -/
noncomputable def npMax : List ℝ → ℝ
  | [] => 0
  | x :: xs => xs.foldl max x

/-- Minimum of a numpy array (`k.min()`). -/
noncomputable def npMin : List ℝ → ℝ
  | [] => 0
  | x :: xs => xs.foldl min x

/-! ### Constructor of `halofit_operator` (nonlinear.py, lines 50-133)

The constructor is modelled as the ordered sequence of observable
events it produces: tables computed, and the first exception raised.
Source order: the three `assert` statements on `k` (lines 59-61), the
BAO-smearing block (lines 100-106), the shape check (lines 109-110),
the `field` dispatch (lines 118-124), then the mass grid and the whole
halo-model computation (lines 127-133). -/

/-- Inputs of `halofit_operator.__init__` (cosmology kept separate). -/
structure HInput where
  z : List ℝ
  k : List ℝ
  pk : List (List ℝ)
  field : String
  bao : Bool

/-- Tables the constructor computes, in stage order. -/
inductive HTable
  | dewiggle
  | massGrid
  | halofitTables
  deriving DecidableEq

/-- Exceptions the constructor can raise:
`AssertionError` from the `k` asserts (lines 59-61); an `IndexError`
from `self.pk[i]` when `pk` has fewer rows than `z` (line 101); a
`ValueError` from `remove_bao`/broadcasting when a row of `pk` and `k`
have different lengths (lines 101-103); the `IndexError` of the shape
check (line 110); the `ValueError` of the `field` dispatch (line 124). -/
inductive HErr
  | assertErr
  | smearIndexErr
  | smearValueErr
  | shapeIndexErr
  | fieldValueErr
  deriving DecidableEq

/-- One observable constructor event. -/
inductive HEvent
  | computed (t : HTable)
  | raised (e : HErr)
  deriving DecidableEq

/-- The three `assert` statements on `k` (lines 59-61) all pass. -/
def kSufficient (k : List ℝ) : Prop :=
  100 < k.length ∧ 10 ≤ npMax k ∧ npMin k ≤ 0.001

/-- Shape check of line 109: `np.shape(pk) == (len(z), len(k))`
(a ragged `pk` has no matching 2-D shape). -/
def shapeOkP (inp : HInput) : Prop :=
  inp.pk.length = inp.z.length ∧ ∀ row ∈ inp.pk, row.length = inp.k.length

/-- The BAO-smearing loop (lines 101-103) runs without a `ValueError`:
each of the first `len(z)` rows of `pk` matches `k` in length. -/
def smearRowsOk (inp : HInput) : Prop :=
  ∀ i < inp.z.length, (inp.pk.getD i []).length = inp.k.length

/-- Events from line 109 on: shape check, `field` dispatch, mass grid
and the full halo-model computation. -/
noncomputable def postSmearEvents (inp : HInput) : List HEvent :=
  if ¬ shapeOkP inp then [HEvent.raised HErr.shapeIndexErr]
  else if inp.field ≠ "cb" ∧ inp.field ≠ "tot" then [HEvent.raised HErr.fieldValueErr]
  else [HEvent.computed HTable.massGrid, HEvent.computed HTable.halofitTables]

/-- Observable event sequence of `halofit_operator.__init__`, in source
order; computation stops at the first raised exception. -/
noncomputable def constructEvents (inp : HInput) : List HEvent :=
  if ¬ kSufficient inp.k then [HEvent.raised HErr.assertErr]
  else if inp.bao then
    if ¬ inp.z.length ≤ inp.pk.length then [HEvent.raised HErr.smearIndexErr]
    else if ¬ smearRowsOk inp then [HEvent.raised HErr.smearValueErr]
    else HEvent.computed HTable.dewiggle :: postSmearEvents inp
  else postSmearEvents inp

/-- First exception in an event sequence, if any. -/
def firstRaised : List HEvent → Option HErr
  | [] => none
  | HEvent.computed _ :: rest => firstRaised rest
  | HEvent.raised e :: _ => some e

/-- The exception `halofit_operator.__init__` raises, if any. -/
noncomputable def constructOutcome (inp : HInput) : Option HErr :=
  firstRaised (constructEvents inp)

/-! ### Cosmology snapshot and the `field` dispatch (lines 118-124) -/

/-- Read-only cosmological scalars the engine takes from the `cosmo`
collaborator at construction. -/
structure CosmoSnap where
  Omega_m : ℝ
  Omega_cb : ℝ
  rho_crit0 : ℝ
  f_cb : ℝ
  f_nu_tot : ℝ

/-- Density of the reference field (lines 118-124): `'cb'` selects
`rho_crit(0) * Omega_cb`, `'tot'` selects `rho_crit(0) * Omega_m`, any
other string is the `ValueError` branch (`none`). -/
def rhoField (c : CosmoSnap) (field : String) : Option ℝ :=
  if field = "cb" then some (c.rho_crit0 * c.Omega_cb)
  else if field = "tot" then some (c.rho_crit0 * c.Omega_m)
  else none

/-! ### BAO smearing (lines 100-106) -/

/-- Velocity-dispersion integral of line 102:
`1/(6 pi^2) * trapz(k * pk, x = log(k))`. -/
noncomputable def svSq (k pkrow : List ℝ) : ℝ :=
  1 / (6 * Real.pi ^ 2) * trapz (k.map Real.log) (List.zipWith (· * ·) k pkrow)

/-- De-wiggled row of line 103:
`(pk - pk_nw) * exp(-k^2 * sv2) + pk_nw`. -/
noncomputable def dwRow (removeBao : List ℝ → List ℝ → List ℝ) (k row : List ℝ) : List ℝ :=
  let nw := removeBao k row
  let s := svSq k row
  List.zipWith (fun kj pr => (pr.1 - pr.2) * Real.exp (-kj ^ 2 * s) + pr.2) k
    (List.zipWith Prod.mk row nw)

/-- The `pk_nw` table (lines 100-106): the no-wiggle spectra when BAO
smearing is on, the input spectra themselves otherwise. -/
noncomputable def pkNwTable (removeBao : List ℝ → List ℝ → List ℝ) (bao : Bool)
    (nz : ℕ) (k : List ℝ) (pk : List (List ℝ)) : List (List ℝ) :=
  if bao then (List.range nz).map (fun i => removeBao k (pk.getD i [])) else pk

/-- The `pk_dw` table (lines 100-106): the de-wiggled spectra when BAO
smearing is on, the input spectra themselves otherwise. -/
noncomputable def pkDwTable (removeBao : List ℝ → List ℝ → List ℝ) (bao : Bool)
    (nz : ℕ) (k : List ℝ) (pk : List (List ℝ)) : List (List ℝ) :=
  if bao then (List.range nz).map (fun i => dwRow removeBao k (pk.getD i [])) else pk

/-! ### Redshift of formation (`z_form`, lines 453-480)

`zf_D` is the cubic interpolant inverting the tabulated growth factor
`D_1` on `z in [0, 30]`; evaluating it outside its tabulated domain is
the `ValueError` caught at line 478.  It is modelled as an explicit
domain check around an abstract interpolant. -/

/-- scipy `interp1d` evaluation: `none` is the out-of-range
`ValueError`, `some` the interpolated value. -/
noncomputable def interpEval (lo hi : ℝ) (f : ℝ → ℝ) (x : ℝ) : Option ℝ :=
  if x < lo ∨ hi < x then none else some (f x)

/-- One entry of the `z_form` result (lines 473-478): invert the growth
factor at `rhs`; on a `ValueError` fall back to `z`; if the inverted
redshift is below `z`, clamp it to `z`. -/
noncomputable def zFormEntry (zfD : ℝ → Option ℝ) (z rhs : ℝ) : ℝ :=
  match zfD rhs with
  | none => z
  | some v => if v < z then z else v

/-- The `z_form` table (lines 453-480): entry `(iz, im)` inverts the
growth target `rhs iz im` with clamping at redshift `z[iz]`. -/
noncomputable def zForm (zfD : ℝ → Option ℝ) (zs : List ℝ) (rhs : ℕ → ℕ → ℝ) :
    ℕ → ℕ → ℝ :=
  fun iz im => zFormEntry zfD (zs.getD iz 0) (rhs iz im)

/-! ### Effective spectral index (lines 187-197)

`scipy.optimize.root` on the cubic interpolant of `sig2 - deltac^2`
over `log10(mass)` is modelled as an oracle: `some r` is a successful
call returning `log10 M_1 = r`, `none` is the `ValueError` branch of
line 191 (the interpolant evaluated outside its range). -/

/-- Mass `M_1` of lines 190-191: `10 ** root` on success, the seed
`10 ** (13 - 1.75 * (1 + z))` on the `ValueError` fallback. -/
noncomputable def M1sel (oracle : Option ℝ) (z : ℝ) : ℝ :=
  match oracle with
  | some r => (10 : ℝ) ^ r
  | none => (10 : ℝ) ^ (13 - 1.75 * (1 + z))

/-- Effective spectral index of lines 193-197:
`n_eff = -3 - 3 * s2_spl.derivative()(log M_1)` where `splLogDer` is
the derivative of the spline of `log sig2` against `log mass`. -/
noncomputable def nEffZ (oracle : Option ℝ) (splLogDer : ℝ → ℝ) (z : ℝ) : ℝ :=
  -3 - 3 * splLogDer (Real.log (M1sel oracle z))

/-! ### Quasi-linear softening and power-spectrum assembly
(lines 221-232, 370-382) -/

/-- Quasi-linear softening `alp` (line 382): `3.24 * 1.85 ** neff`. -/
noncomputable def alp (neff : ℝ) : ℝ := 3.24 * (1.85 : ℝ) ^ neff

/-- Low-k damping factor applied to the 1-halo term (line 230):
`(1 - exp(-k / k_star) ** 2) ** 3`. -/
noncomputable def onehaloDamp (k ks : ℝ) : ℝ :=
  (1 - Real.exp (-k / ks) ^ 2) ^ 3

/-- Undamped 1-halo mass integral of lines 228-229:
`trapz(((mass/rho)^2 * hmf * u^2) * mass, x = log(mass))`. -/
noncomputable def pk1hRaw (mass : List ℝ) (rho : ℝ) (hmfRow uCol : ℕ → ℝ) : ℝ :=
  trapz (mass.map Real.log)
    ((List.range mass.length).map
      (fun j => (mass.getD j 0 / rho) ^ 2 * hmfRow j * uCol j ^ 2 * mass.getD j 0))

/-- Damped 1-halo term (lines 228-230). -/
noncomputable def pk1h (mass : List ℝ) (rho : ℝ) (hmfRow uCol : ℕ → ℝ) (k ks : ℝ) : ℝ :=
  pk1hRaw mass rho hmfRow uCol * onehaloDamp k ks

/-- Inputs of the power-spectrum assembler (lines 221-232): the tables
computed by the preceding pipeline stages, indexed as in the source
(`iz` redshift, `j` mass, `ik` scale). -/
structure AssemblerIn where
  mass : List ℝ
  rho : ℝ
  hmf : ℕ → ℕ → ℝ
  u : ℕ → ℕ → ℕ → ℝ
  k : ℕ → ℝ
  kstar : ℕ → ℝ
  pkdw : ℕ → ℕ → ℝ
  fdamp : ℕ → ℝ
  sigd : ℕ → ℝ
  neff : ℕ → ℝ

/-- 1-halo term on the grid (lines 228-230). -/
noncomputable def pk1hA (A : AssemblerIn) (iz ik : ℕ) : ℝ :=
  pk1h A.mass A.rho (A.hmf iz) (fun j => A.u iz j ik) (A.k ik) (A.kstar iz)

/-- 2-halo term (lines 221-222 and 231):
`pk_dw * (1 - fdamp * tanh(k * sigd / sqrt(fdamp)) ** 2)`. -/
noncomputable def pk2hA (A : AssemblerIn) (iz ik : ℕ) : ℝ :=
  A.pkdw iz ik *
    (1 - A.fdamp iz * Real.tanh (A.k ik * A.sigd iz / Real.sqrt (A.fdamp iz)) ^ 2)

/-- Non-linear spectrum (line 232):
`(pk_1h ** alpha + pk_2h ** alpha) ** (1 / alpha)`. -/
noncomputable def pkNlA (A : AssemblerIn) (iz ik : ℕ) : ℝ :=
  (pk1hA A iz ik ^ alp (A.neff iz) + pk2hA A iz ik ^ alp (A.neff iz)) ^
    (1 / alp (A.neff iz))

/-! ### The `nonlinear_pk` CDM prescription (lines 612-668) -/

/-- The `field` argument `nonlinear_pk.__init__` passes to
`halofit_operator` (line 662). -/
def nonlinearPkFieldArg : String := "cb"

/-- Total-matter non-linear spectrum of `nonlinear_pk` (lines 662-668):
the halofit operator (an arbitrary spectrum-to-spectrum map `hop`
taking the `field` string) is applied to the linear cb spectrum with
`field = 'cb'`, and the result is combined linearly with the linear
cross and neutrino spectra. -/
noncomputable def nonlinearPkTot (c : CosmoSnap)
    (hop : (ℕ → ℕ → ℝ) → String → ℕ → ℕ → ℝ)
    (pk_cbcb pk_cbnu pk_nunu : ℕ → ℕ → ℝ) (iz ik : ℕ) : ℝ :=
  let pk_nl_cbcb := hop pk_cbcb nonlinearPkFieldArg
  c.f_cb ^ 2 * pk_nl_cbcb iz ik + 2 * c.f_nu_tot * c.f_cb * pk_cbnu iz ik +
    c.f_nu_tot ^ 2 * pk_nunu iz ik

/-! ### Fourier-space NFW profile (`u_NFW`, lines 429-448)

scipy's `sici(x)` returns the sine integral
`Si(x) = integral of sin t / t over [0, x]` and the cosine integral
`Ci(x) = gamma + log x + integral of (cos t - 1)/t over [0, x]`.
`u_NFW` only uses the difference `Ci((1+c) x) - Ci(x)`, which for
`x > 0` telescopes to
`log(1+c) + integral of (cos t - 1)/t over [x, (1+c) x]`;
that difference is embedded directly as `ciDiff`. -/

/-- Sine integral `Si(x)` (the integrand takes Lean's junk value `0`
at `t = 0`, which matches its limit being irrelevant to the integral). -/
noncomputable def Si (x : ℝ) : ℝ := ∫ t in (0 : ℝ)..x, Real.sin t / t

/-- The difference `Ci((1+c) x) - Ci(x)` of cosine integrals. -/
noncomputable def ciDiff (c x : ℝ) : ℝ :=
  Real.log (1 + c) + ∫ t in x..(1 + c) * x, (Real.cos t - 1) / t

/-- Fourier-space NFW profile (lines 442-448):
`(sin x (Si((1+c)x) - Si x) + cos x (Ci((1+c)x) - Ci x)
  - sin(c x)/((1+c) x)) / (log(1+c) - c/(1+c))`. -/
noncomputable def u_NFW (c x : ℝ) : ℝ :=
  let den := Real.log (1 + c) - c * 1 / (1 + c)
  let num1 := Real.sin x * (Si ((1 + c) * x) - Si x)
  let num2 := Real.sin (c * x)
  let num3 := Real.cos x * ciDiff c x
  1 / den * (num1 + num3 - num2 * 1 / ((1 + c) * x))

/-! ### Concrete inputs used by witnesses and counterexamples -/

/-- A `k` grid passing the constructor asserts: 101 points, maximum 10,
minimum 0.001. -/
noncomputable def goodK : List ℝ := 0.001 :: List.replicate 100 10

/-- Concrete assembler input used to test the 1-halo damping claim:
two masses `1` and `e`, unit density, `hmf` chosen so the undamped mass
integral is exactly `1`, evaluated at `k = log 2`, `k_star = 1`. -/
noncomputable def Aex : AssemblerIn where
  mass := [1, Real.exp 1]
  rho := 1
  hmf := fun _ j => if j = 0 then 1 else Real.exp (-3)
  u := fun _ _ _ => 1
  k := fun _ => Real.log 2
  kstar := fun _ => 1
  pkdw := fun _ _ => 0
  fdamp := fun _ => 0
  sigd := fun _ => 0
  neff := fun _ => 0

/-! ### Helper lemmas -/

theorem foldl_max_replicate (x a : ℝ) :
    ∀ n : ℕ, 0 < n → (List.replicate n x).foldl max a = max a x := by
  intro n
  induction n generalizing a with
  | zero => intro h; exact absurd h (lt_irrefl 0)
  | succ m ih =>
    intro _
    rw [List.replicate_succ, List.foldl_cons]
    rcases Nat.eq_zero_or_pos m with h | h
    · subst h; simp
    · rw [ih (max a x) h, max_assoc, max_self]

theorem foldl_min_replicate (x a : ℝ) :
    ∀ n : ℕ, 0 < n → (List.replicate n x).foldl min a = min a x := by
  intro n
  induction n generalizing a with
  | zero => intro h; exact absurd h (lt_irrefl 0)
  | succ m ih =>
    intro _
    rw [List.replicate_succ, List.foldl_cons]
    rcases Nat.eq_zero_or_pos m with h | h
    · subst h; simp
    · rw [ih (min a x) h, min_assoc, min_self]

theorem npMax_goodK : npMax goodK = 10 := by
  show (List.replicate 100 (10 : ℝ)).foldl max 0.001 = 10
  rw [foldl_max_replicate 10 0.001 100 (by norm_num)]
  exact max_eq_right (by norm_num)

theorem npMin_goodK : npMin goodK = 0.001 := by
  show (List.replicate 100 (10 : ℝ)).foldl min 0.001 = 0.001
  rw [foldl_min_replicate 10 0.001 100 (by norm_num)]
  exact min_eq_left (by norm_num)

theorem goodK_length : goodK.length = 101 := by
  simp [goodK]

theorem kSufficient_goodK : kSufficient goodK := by
  refine ⟨?_, ?_, ?_⟩
  · rw [goodK_length]; norm_num
  · rw [npMax_goodK]
  · rw [npMin_goodK]

/-! ### Claim theorems -/

/-- C5: for every redshift and mass index, `z_form` is bounded below by
the observation redshift; an out-of-range growth inversion, or an
inverted value below `z`, yields exactly `z`. -/
theorem z_form_clamp :
    ∀ (lo hi : ℝ) (f : ℝ → ℝ) (zs : List ℝ) (rhs : ℕ → ℕ → ℝ) (iz im : ℕ),
      zs.getD iz 0 ≤ zForm (interpEval lo hi f) zs rhs iz im
      ∧ ((rhs iz im < lo ∨ hi < rhs iz im) →
          zForm (interpEval lo hi f) zs rhs iz im = zs.getD iz 0)
      ∧ (f (rhs iz im) < zs.getD iz 0 →
          zForm (interpEval lo hi f) zs rhs iz im = zs.getD iz 0) := by
  intro lo hi f zs rhs iz im
  by_cases h : rhs iz im < lo ∨ hi < rhs iz im
  · have he : zForm (interpEval lo hi f) zs rhs iz im = zs.getD iz 0 := by
      unfold zForm zFormEntry interpEval
      rw [if_pos h]
    exact ⟨le_of_eq he.symm, fun _ => he, fun _ => he⟩
  · have he : zForm (interpEval lo hi f) zs rhs iz im =
        if f (rhs iz im) < zs.getD iz 0 then zs.getD iz 0 else f (rhs iz im) := by
      unfold zForm zFormEntry interpEval
      rw [if_neg h]
    rw [he]
    refine ⟨?_, fun hc => absurd hc h, ?_⟩
    · by_cases hv : f (rhs iz im) < zs.getD iz 0
      · rw [if_pos hv]
      · rw [if_neg hv]; exact le_of_not_lt hv
    · intro hv; rw [if_pos hv]

/-- Witness for C5 at a concrete input: target `2` outside the
tabulated range `[0, 1]`, observation redshift `5`. -/
theorem z_form_clamp_witness :
    zForm (interpEval 0 1 id) [5] (fun _ _ => 2) 0 0 = 5
    ∧ (5 : ℝ) ≤ zForm (interpEval 0 1 id) [5] (fun _ _ => 2) 0 0 := by
  have h := z_form_clamp 0 1 id [5] (fun _ _ => 2) 0 0
  refine ⟨?_, ?_⟩
  · have := h.2.1 (Or.inr (by norm_num))
    simpa using this
  · simpa using h.1

/-- C6: with BAO smearing disabled the de-wiggled (and no-wiggle)
spectra are exactly the input linear spectra, for every entry. -/
theorem bao_disabled_identity :
    ∀ (removeBao : List ℝ → List ℝ → List ℝ) (nz : ℕ) (k : List ℝ)
      (pk : List (List ℝ)),
      pkDwTable removeBao false nz k pk = pk
      ∧ pkNwTable removeBao false nz k pk = pk := by
  intro rb nz k pk
  exact ⟨rfl, rfl⟩

/-- C4: the effective spectral index is
`-3 - 3 * d(log sig2)/d(log M)` at the mass `M_1` returned by the root
search on the spline of `sig2 - deltac^2` over `log10 M`; when the root
call fails, `M_1` falls back to the seed `10 ^ (13 - 1.75 (1 + z))`. -/
theorem n_eff_root_fallback :
    ∀ (oracle : Option ℝ) (sigSpl splLogDer : ℝ → ℝ) (z dc : ℝ),
      (∀ r, oracle = some r → sigSpl r - dc ^ 2 = 0) →
      nEffZ oracle splLogDer z = -3 - 3 * splLogDer (Real.log (M1sel oracle z))
      ∧ (oracle = none → M1sel oracle z = (10 : ℝ) ^ (13 - 1.75 * (1 + z)))
      ∧ (∀ r, oracle = some r →
          sigSpl (Real.logb 10 (M1sel oracle z)) = dc ^ 2) := by
  intro oracle sigSpl splD z dc hroot
  refine ⟨rfl, ?_, ?_⟩
  · intro h; rw [h]; rfl
  · intro r hr
    have hval := hroot r hr
    rw [hr]
    show sigSpl (Real.logb 10 ((10 : ℝ) ^ r)) = dc ^ 2
    rw [Real.logb_rpow (by norm_num : (0:ℝ) < 10) (by norm_num : (10:ℝ) ≠ 1)]
    linarith

/-- Witness for C4 at a concrete input: a successful root call at
`log10 M_1 = 0` with a constant spline. -/
theorem n_eff_root_fallback_witness :
    nEffZ (some 0) (fun _ => 0) 0 = -3
    ∧ (fun _ : ℝ => (1 : ℝ)) (Real.logb 10 (M1sel (some 0) 0)) = (1 : ℝ) ^ 2 := by
  have h := n_eff_root_fallback (some 0) (fun _ => 1) (fun _ => 0) 0 1
    (fun r hr => by norm_num)
  refine ⟨?_, h.2.2 0 rfl⟩
  rw [h.1]
  simp

/-- C9: the final spectrum is the smooth-minimum blend
`(pk_1h ** alpha + pk_2h ** alpha) ** (1/alpha)` with
`alpha = 3.24 * 1.85 ** n_eff`, and `alp` is strictly positive on all
of `ℝ`. -/
theorem pk_combination_alpha_pos :
    (∀ (A : AssemblerIn) (iz ik : ℕ),
        pkNlA A iz ik =
          (pk1hA A iz ik ^ (3.24 * (1.85 : ℝ) ^ A.neff iz)
            + pk2hA A iz ik ^ (3.24 * (1.85 : ℝ) ^ A.neff iz)) ^
            (1 / (3.24 * (1.85 : ℝ) ^ A.neff iz)))
    ∧ ∀ x : ℝ, 0 < alp x := by
  constructor
  · intro A iz ik; rfl
  · intro x
    exact mul_pos (by norm_num) (Real.rpow_pos_of_pos (by norm_num) x)

/-- C10: `nonlinear_pk` applies the halofit operator with
`field = 'cb'` and assembles the total-matter non-linear spectrum as
`f_cb^2 * pk_nl_cbcb + 2 f_nu f_cb * pk_cbnu + f_nu^2 * pk_nunu`, the
cross and neutrino spectra entering linearly. -/
theorem nonlinear_pk_cdm_prescription :
    nonlinearPkFieldArg = "cb"
    ∧ ∀ (c : CosmoSnap) (hop : (ℕ → ℕ → ℝ) → String → ℕ → ℕ → ℝ)
        (pk_cbcb pk_cbnu pk_nunu : ℕ → ℕ → ℝ) (iz ik : ℕ),
        nonlinearPkTot c hop pk_cbcb pk_cbnu pk_nunu iz ik =
          c.f_cb ^ 2 * hop pk_cbcb "cb" iz ik
            + 2 * c.f_nu_tot * c.f_cb * pk_cbnu iz ik
            + c.f_nu_tot ^ 2 * pk_nunu iz ik :=
  ⟨rfl, fun _ _ _ _ _ _ _ => rfl⟩

/-- A well-shaped `pk` also survives the BAO-smearing loop. -/
theorem shapeOk_smearRowsOk (inp : HInput) (hs : shapeOkP inp) : smearRowsOk inp := by
  intro i hi
  have hi' : i < inp.pk.length := by rw [hs.1]; exact hi
  rw [List.getD_eq_getElem inp.pk [] hi']
  exact hs.2 _ (List.getElem_mem hi')

/-- Closed form of the constructor outcome: the first failing check in
source order determines the exception. -/
theorem constructOutcome_eq (inp : HInput) :
    constructOutcome inp =
      if ¬ kSufficient inp.k then some HErr.assertErr
      else if inp.bao = true ∧ inp.pk.length < inp.z.length then some HErr.smearIndexErr
      else if inp.bao = true ∧ ¬ smearRowsOk inp then some HErr.smearValueErr
      else if ¬ shapeOkP inp then some HErr.shapeIndexErr
      else if inp.field ≠ "cb" ∧ inp.field ≠ "tot" then some HErr.fieldValueErr
      else none := by
  unfold constructOutcome constructEvents postSmearEvents
  by_cases hk : kSufficient inp.k
  · rw [if_neg (not_not_intro hk), if_neg (not_not_intro hk)]
    cases hbao : inp.bao
    · simp only [hbao, Bool.false_eq_true, false_and, if_false]
      by_cases hs : shapeOkP inp
      · rw [if_neg (not_not_intro hs), if_neg (not_not_intro hs)]
        by_cases hf : inp.field ≠ "cb" ∧ inp.field ≠ "tot"
        · rw [if_pos hf, if_pos hf]; rfl
        · rw [if_neg hf, if_neg hf]; rfl
      · rw [if_pos hs, if_pos hs]; rfl
    · simp only [hbao, true_and]
      by_cases hle : inp.pk.length < inp.z.length
      · rw [if_pos (by omega : ¬ inp.z.length ≤ inp.pk.length), if_pos hle]; rfl
      · rw [if_neg (by omega : ¬ ¬ inp.z.length ≤ inp.pk.length), if_neg hle]
        by_cases hsm : smearRowsOk inp
        · rw [if_neg (not_not_intro hsm), if_neg (not_not_intro hsm)]
          by_cases hs : shapeOkP inp
          · rw [if_neg (not_not_intro hs), if_neg (not_not_intro hs)]
            by_cases hf : inp.field ≠ "cb" ∧ inp.field ≠ "tot"
            · rw [if_pos hf, if_pos hf]; rfl
            · rw [if_neg hf, if_neg hf]; rfl
          · rw [if_pos hs, if_pos hs]; rfl
        · rw [if_pos hsm, if_pos hsm]; rfl
  · rw [if_pos hk, if_pos hk]; rfl

/-- C2 (amended): the constructor raises an `AssertionError` exactly
when the `k` array fails one of the three asserts (at most 100 points,
or maximum below 10, or minimum above 0.001); it never merely warns. -/
theorem k_assert_characterization :
    ∀ inp : HInput,
      constructOutcome inp = some HErr.assertErr ↔ ¬ kSufficient inp.k := by
  intro inp
  rw [constructOutcome_eq]
  by_cases hk : kSufficient inp.k
  · rw [if_neg (not_not_intro hk)]
    simp only [hk, not_true, iff_false]
    split_ifs <;> simp
  · rw [if_pos hk]
    simp [hk]

/-- C2 counterexample: constructing with the one-point array `k = [1]`
raises an `AssertionError`; construction does fail. -/
theorem k_assert_raises_counterexample :
    ¬ kSufficient [(1 : ℝ)]
    ∧ constructOutcome ⟨[0], [(1 : ℝ)], [[1]], "cb", true⟩ = some HErr.assertErr := by
  have hk : ¬ kSufficient [(1 : ℝ)] := by
    intro h
    have h1 := h.1
    simp at h1
  exact ⟨hk, by rw [constructOutcome_eq]; rw [if_pos hk]⟩

/-- C7 (amended): with BAO smearing disabled, a `pk` of wrong shape
makes the constructor raise the shape `IndexError` as its very first
event, before any table is computed; a well-shaped `pk` never triggers
the shape error (with smearing enabled, a row-length mismatch instead
fails inside the smearing block first). -/
theorem shape_error_characterization :
    ∀ inp : HInput,
      (inp.bao = false → kSufficient inp.k → ¬ shapeOkP inp →
        constructEvents inp = [HEvent.raised HErr.shapeIndexErr])
      ∧ (shapeOkP inp → constructOutcome inp ≠ some HErr.shapeIndexErr) := by
  intro inp
  constructor
  · intro hb hk hs
    unfold constructEvents postSmearEvents
    rw [if_neg (not_not_intro hk), hb]
    simp only [Bool.false_eq_true, if_false]
    rw [if_pos hs]
  · intro hs
    rw [constructOutcome_eq]
    rw [if_neg (not_not_intro hs)]
    split_ifs <;> simp

/-- C7 counterexample: with BAO smearing enabled (the default) and a
mis-shaped `pk` whose single row has 5 entries against 101 scales, the
constructor raises the smearing `ValueError`, not the shape
`IndexError` of line 110. -/
theorem shape_error_counterexample :
    ¬ shapeOkP ⟨[0], goodK, [List.replicate 5 (1 : ℝ)], "cb", true⟩
    ∧ constructOutcome ⟨[0], goodK, [List.replicate 5 (1 : ℝ)], "cb", true⟩
        = some HErr.smearValueErr
    ∧ constructOutcome ⟨[0], goodK, [List.replicate 5 (1 : ℝ)], "cb", true⟩
        ≠ some HErr.shapeIndexErr := by
  have hs : ¬ shapeOkP ⟨[0], goodK, [List.replicate 5 (1 : ℝ)], "cb", true⟩ := by
    intro h
    have hrow := h.2 (List.replicate 5 (1 : ℝ)) (by simp)
    rw [goodK_length] at hrow
    simp at hrow
  have hsm : ¬ smearRowsOk ⟨[0], goodK, [List.replicate 5 (1 : ℝ)], "cb", true⟩ := by
    intro h
    have h0 := h 0 (by simp)
    rw [goodK_length] at h0
    simp at h0
  have hout : constructOutcome ⟨[0], goodK, [List.replicate 5 (1 : ℝ)], "cb", true⟩
      = some HErr.smearValueErr := by
    rw [constructOutcome_eq]
    rw [if_neg (not_not_intro kSufficient_goodK)]
    rw [if_neg (by simp)]
    rw [if_pos ⟨rfl, hsm⟩]
  exact ⟨hs, hout, by rw [hout]; simp⟩

/-- Witness for C7: a missing-row `pk` with smearing off raises exactly
the shape error first; a well-shaped `pk` never raises it. -/
theorem shape_error_characterization_witness :
    constructEvents ⟨[0], goodK, [], "cb", false⟩ = [HEvent.raised HErr.shapeIndexErr]
    ∧ constructOutcome ⟨[0], goodK, [List.replicate 101 (1 : ℝ)], "cb", false⟩
        ≠ some HErr.shapeIndexErr := by
  constructor
  · refine (shape_error_characterization ⟨[0], goodK, [], "cb", false⟩).1 rfl
      kSufficient_goodK ?_
    intro h
    have h1 := h.1
    simp at h1
  · refine (shape_error_characterization _).2 ?_
    refine ⟨rfl, ?_⟩
    intro row hr
    simp only [List.mem_singleton] at hr
    rw [hr, goodK_length]
    simp

/-- C8: the `field` dispatch raises its `ValueError` exactly for a
string other than `'cb'` and `'tot'` on an otherwise valid
construction, and selects `rho_crit(0) * Omega_cb` for `'cb'`,
`rho_crit(0) * Omega_m` for `'tot'`. -/
theorem field_selection :
    ∀ (inp : HInput) (c : CosmoSnap),
      (constructOutcome inp = some HErr.fieldValueErr ↔
        kSufficient inp.k ∧ shapeOkP inp ∧ inp.field ≠ "cb" ∧ inp.field ≠ "tot")
      ∧ rhoField c "cb" = some (c.rho_crit0 * c.Omega_cb)
      ∧ rhoField c "tot" = some (c.rho_crit0 * c.Omega_m)
      ∧ (inp.field ≠ "cb" → inp.field ≠ "tot" → rhoField c inp.field = none) := by
  intro inp c
  refine ⟨?_, rfl, rfl, ?_⟩
  · rw [constructOutcome_eq]
    by_cases hk : kSufficient inp.k
    · rw [if_neg (not_not_intro hk)]
      by_cases hs : shapeOkP inp
      · have hsm := shapeOk_smearRowsOk inp hs
        have hle : ¬ inp.pk.length < inp.z.length := by
          rw [hs.1]; omega
        rw [if_neg (by intro h; exact hle h.2), if_neg (by intro h; exact h.2 hsm),
          if_neg (not_not_intro hs)]
        by_cases hf : inp.field ≠ "cb" ∧ inp.field ≠ "tot"
        · rw [if_pos hf]
          simp [hk, hs, hf.1, hf.2]
        · rw [if_neg hf]
          exact iff_of_false (by simp) (fun hc => hf ⟨hc.2.2.1, hc.2.2.2⟩)
      · have hrs : (kSufficient inp.k ∧ shapeOkP inp ∧ inp.field ≠ "cb" ∧
            inp.field ≠ "tot") ↔ False := by simp [hs]
        rw [hrs, iff_false]
        split_ifs <;> simp_all
    · rw [if_pos hk]
      simp [hk]
  · intro h1 h2
    unfold rhoField
    rw [if_neg h1, if_neg h2]

/-- Witness for C8: the unknown field string `'xx'` on an otherwise
valid construction raises the field `ValueError` and selects no
density. -/
theorem field_selection_witness :
    constructOutcome ⟨[0], goodK, [List.replicate 101 (1 : ℝ)], "xx", false⟩
        = some HErr.fieldValueErr
    ∧ rhoField ⟨0, 0, 0, 0, 0⟩ "xx" = none := by
  have hshape : shapeOkP ⟨[0], goodK, [List.replicate 101 (1 : ℝ)], "xx", false⟩ := by
    refine ⟨rfl, ?_⟩
    intro row hr
    simp only [List.mem_singleton] at hr
    rw [hr, goodK_length]
    simp
  have h := field_selection ⟨[0], goodK, [List.replicate 101 (1 : ℝ)], "xx", false⟩
    ⟨0, 0, 0, 0, 0⟩
  refine ⟨h.1.mpr ⟨kSufficient_goodK, hshape, by simp, by simp⟩, ?_⟩
  exact h.2.2.2 (by simp) (by simp)

/-- C1 (amended): the 1-halo term is the mass integral
`trapz(M (M/rho)^2 hmf u^2, x = log M)` multiplied by the damping
factor `(1 - exp(-2 k / k_star))^3`, the cube of
`1 - exp(-2 k / k_star)` (the source's `(1 - exp(-k/k_star)**2)**3`),
not the sixth power of `1 - exp(-k/k_star)`. -/
theorem pk1h_damping_cube :
    ∀ (A : AssemblerIn) (iz ik : ℕ),
      pk1hA A iz ik =
        pk1hRaw A.mass A.rho (A.hmf iz) (fun j => A.u iz j ik) *
          (1 - Real.exp (-(2 * A.k ik) / A.kstar iz)) ^ 3 := by
  intro A iz ik
  unfold pk1hA pk1h onehaloDamp
  congr 2
  rw [← Real.exp_nat_mul]
  norm_num
  ring_nf

theorem pk1hRaw_Aex : pk1hRaw Aex.mass Aex.rho (Aex.hmf 0) (fun j => Aex.u 0 j 0) = 1 := by
  show pk1hRaw [1, Real.exp 1] 1 (fun j => if j = 0 then 1 else Real.exp (-3))
    (fun _ => 1) = 1
  unfold pk1hRaw
  have hr : List.range ([(1 : ℝ), Real.exp 1].length) = [0, 1] := rfl
  rw [hr]
  simp only [List.map_cons, List.map_nil, List.getD_cons_zero, List.getD_cons_succ]
  norm_num
  have h1 : Real.exp 2 * Real.exp (-3) * Real.exp 1 = 1 := by
    rw [← Real.exp_add, ← Real.exp_add]
    norm_num
  rw [h1]
  simp [trapz]

/-- C1 counterexample: at `k/k_star = log 2` with unit mass integral,
the source damping gives `(1 - exp(-log 2)^2)^3 = 27/64`, while the
claimed sixth power gives `(1 - exp(-log 2))^6 = 1/64`. -/
theorem pk1h_damping_exponent_counterexample :
    pk1hA Aex 0 0 ≠
      pk1hRaw Aex.mass Aex.rho (Aex.hmf 0) (fun j => Aex.u 0 j 0) *
        (1 - Real.exp (-Aex.k 0 / Aex.kstar 0)) ^ 6 := by
  have hexp : Real.exp (-Aex.k 0 / Aex.kstar 0) = 1 / 2 := by
    show Real.exp (-Real.log 2 / 1) = 1 / 2
    rw [div_one, Real.exp_neg, Real.exp_log (by norm_num : (0 : ℝ) < 2)]
    norm_num
  have hA : pk1hA Aex 0 0 = 27 / 64 := by
    unfold pk1hA pk1h onehaloDamp
    rw [pk1hRaw_Aex, hexp]
    norm_num
  rw [hA, pk1hRaw_Aex, hexp]
  norm_num

/-! ### Analysis of the NFW profile (claim on `u_NFW`) -/

/-- Unfolded form of `u_NFW`. -/
theorem u_NFW_def (c x : ℝ) :
    u_NFW c x =
      1 / (Real.log (1 + c) - c * 1 / (1 + c)) *
        (Real.sin x * (Si ((1 + c) * x) - Si x) + Real.cos x * ciDiff c x
          - Real.sin (c * x) * 1 / ((1 + c) * x)) := rfl

/-- The normalization denominator `log(1+c) - c/(1+c)` is positive for
every concentration `c > 0`. -/
theorem den_pos (c : ℝ) (hc : 0 < c) : 0 < Real.log (1 + c) - c * 1 / (1 + c) := by
  have h1c : (0 : ℝ) < 1 + c := by linarith
  have hne : (1 + c)⁻¹ ≠ 1 := by
    intro h
    rw [inv_eq_one] at h
    linarith
  have h := Real.log_lt_sub_one_of_pos (inv_pos.mpr h1c) hne
  rw [Real.log_inv] at h
  have hsub : (1 + c)⁻¹ - 1 = -(c / (1 + c)) := by field_simp
  rw [hsub] at h
  have hlt : c / (1 + c) < Real.log (1 + c) := by linarith
  rw [mul_one]
  linarith

/-- C3 counterexample: at `x = 0` the closed form is not `1`.  (The
term `sin(c x)/((1+c) x)` is `0/0` there and `Ci` diverges at `0`; in
floating point `u_NFW(c, 0)` is `NaN`, and in the embedding's total
semantics `u_NFW 1 0 = log 2 / (log 2 - 1/2) > 1`.) -/
theorem u_NFW_at_zero_counterexample : u_NFW 1 0 ≠ 1 := by
  have hden : 0 < Real.log (1 + 1) - 1 * 1 / (1 + 1) := den_pos 1 one_pos
  rw [u_NFW_def]
  have hSi : Si 0 = 0 := intervalIntegral.integral_same
  have hSi2 : Si ((1 + 1) * 0) = 0 := by rw [mul_zero]; exact hSi
  have hCi : ciDiff 1 0 = Real.log (1 + 1) := by
    unfold ciDiff
    rw [mul_zero, intervalIntegral.integral_same, add_zero]
  rw [hSi, hSi2, hCi]
  simp only [Real.sin_zero, Real.cos_zero, mul_zero, zero_mul, sub_zero, zero_sub,
    mul_one, one_mul, zero_div, sub_self]
  intro h
  have hlog : (0.6931471803 : ℝ) < Real.log 2 := Real.log_two_gt_d9
  have h2 : Real.log (1 + 1) = Real.log 2 := by norm_num
  rw [h2] at hden
  field_simp at h
  rw [h2] at h
  have hd2 : Real.log 2 * (1 + 1) - 1 ≠ 0 := by
    intro h0
    linarith
  rw [div_eq_one_iff_eq hd2] at h
  linarith

/-- The sine-integral integrand is globally bounded by `1`. -/
theorem norm_sin_div_le_one (t : ℝ) : ‖Real.sin t / t‖ ≤ 1 := by
  rcases eq_or_ne t 0 with h | h
  · simp [h]
  · rw [Real.norm_eq_abs, abs_div, div_le_one (abs_pos.mpr h)]
    exact Real.abs_sin_le_abs

/-- The sine-integral integrand is interval integrable on every
interval. -/
theorem intervalIntegrable_sin_div (a b : ℝ) :
    IntervalIntegrable (fun t => Real.sin t / t) MeasureTheory.volume a b := by
  have hm : MeasureTheory.AEStronglyMeasurable (fun t : ℝ => Real.sin t / t)
      MeasureTheory.volume :=
    (Real.measurable_sin.div measurable_id).aestronglyMeasurable
  constructor <;>
  · refine MeasureTheory.Integrable.mono'
      (g := fun _ => (1 : ℝ)) ?_ hm.restrict ?_
    · exact MeasureTheory.integrableOn_const.mpr (Or.inr measure_Ioc_lt_top)
    · exact MeasureTheory.ae_of_all _ fun t => norm_sin_div_le_one t

/-- The sine integral is bounded by the length of the interval. -/
theorem norm_Si_le (x : ℝ) : ‖Si x‖ ≤ |x| := by
  unfold Si
  have h := intervalIntegral.norm_integral_le_of_norm_le_const
    (a := 0) (b := x) (C := 1) (f := fun t => Real.sin t / t)
    (fun t _ => norm_sin_div_le_one t)
  simpa using h

/-- `Si` tends to `0` from the right at `0`. -/
theorem tendsto_Si_zero_right : Tendsto Si (𝓝[>] (0 : ℝ)) (𝓝 0) := by
  refine squeeze_zero_norm (fun x => norm_Si_le x) ?_
  have h : Tendsto (fun x : ℝ => |x|) (𝓝 0) (𝓝 0) := by
    simpa using continuous_abs.tendsto (0 : ℝ)
  exact h.mono_left nhdsWithin_le_nhds

/-- Multiplication by a positive constant preserves the right
neighbourhood filter of `0`. -/
theorem tendsto_const_mul_nhdsGT (c : ℝ) (hc : 0 < c) :
    Tendsto (fun x : ℝ => c * x) (𝓝[>] (0 : ℝ)) (𝓝[>] (0 : ℝ)) := by
  rw [tendsto_nhdsWithin_iff]
  constructor
  · have h : Tendsto (fun x : ℝ => c * x) (𝓝 0) (𝓝 0) :=
      (continuous_mul_left c).tendsto' 0 0 (mul_zero c)
    exact h.mono_left nhdsWithin_le_nhds
  · filter_upwards [self_mem_nhdsWithin] with x hx
    exact mul_pos hc hx

/-- The cosine-integral remainder vanishes from the right at `0`, so
`Ci((1+c)x) - Ci(x)` tends to `log(1+c)`. -/
theorem tendsto_ciDiff_zero_right (c : ℝ) (hc : 0 < c) :
    Tendsto (fun x => ciDiff c x) (𝓝[>] (0 : ℝ)) (𝓝 (Real.log (1 + c))) := by
  have h1c : (0 : ℝ) < 1 + c := by linarith
  have hJ : Tendsto (fun x => ∫ t in x..(1 + c) * x, (Real.cos t - 1) / t)
      (𝓝[>] (0 : ℝ)) (𝓝 0) := by
    apply squeeze_zero_norm' (a := fun x => (1 + c) * x / 2 * (c * x))
    · filter_upwards [self_mem_nhdsWithin] with x hx
      have hx0 : 0 < x := hx
      have hxle : x ≤ (1 + c) * x := by nlinarith
      have hb : ∀ t ∈ Set.uIoc x ((1 + c) * x),
          ‖(Real.cos t - 1) / t‖ ≤ (1 + c) * x / 2 := by
        intro t ht
        rw [Set.uIoc_of_le hxle] at ht
        have ht0 : 0 < t := lt_trans hx0 ht.1
        have hcos : 1 - Real.cos t ≤ t ^ 2 / 2 := by
          have := Real.one_sub_sq_div_two_le_cos (x := t)
          linarith
        have hcos1 : Real.cos t ≤ 1 := Real.cos_le_one t
        rw [Real.norm_eq_abs, abs_div, abs_of_pos ht0,
          abs_of_nonpos (by linarith : Real.cos t - 1 ≤ 0), neg_sub,
          div_le_iff₀ ht0]
        nlinarith [ht.2, ht.1]
      have h := intervalIntegral.norm_integral_le_of_norm_le_const hb
      calc ‖∫ t in x..(1 + c) * x, (Real.cos t - 1) / t‖
          ≤ (1 + c) * x / 2 * |(1 + c) * x - x| := h
        _ = (1 + c) * x / 2 * (c * x) := by
            rw [abs_of_nonneg (by nlinarith : (0:ℝ) ≤ (1 + c) * x - x)]
            ring_nf
    · have hcont : Continuous (fun x : ℝ => (1 + c) * x / 2 * (c * x)) := by
        continuity
      have h := hcont.tendsto (0 : ℝ)
      simp only [mul_zero, zero_div, zero_mul] at h
      exact h.mono_left nhdsWithin_le_nhds
  have heq : (fun x => ciDiff c x)
      = fun x => Real.log (1 + c) + ∫ t in x..(1 + c) * x, (Real.cos t - 1) / t := rfl
  rw [heq]
  have h2 := (tendsto_const_nhds (x := Real.log (1 + c))).add hJ
  rw [add_zero] at h2
  exact h2

/-- The slope of `sin` at `0`: `sin y / y` tends to `1`. -/
theorem tendsto_sin_div_self : Tendsto (fun y : ℝ => Real.sin y / y) (𝓝[≠] (0 : ℝ)) (𝓝 1) := by
  have h := hasDerivAt_iff_tendsto_slope.mp (Real.hasDerivAt_sin 0)
  rw [Real.cos_zero] at h
  refine Tendsto.congr' ?_ h
  filter_upwards [] with y
  rw [slope_def_field]
  simp

/-- The term `sin(c x) / ((1+c) x)` tends to `c/(1+c)` from the
right at `0`. -/
theorem tendsto_sin_term_right (c : ℝ) (hc : 0 < c) :
    Tendsto (fun x : ℝ => Real.sin (c * x) * 1 / ((1 + c) * x)) (𝓝[>] (0 : ℝ))
      (𝓝 (c / (1 + c))) := by
  have h1c : (0 : ℝ) < 1 + c := by linarith
  have hmap : Tendsto (fun x : ℝ => c * x) (𝓝[>] (0 : ℝ)) (𝓝[≠] (0 : ℝ)) := by
    rw [tendsto_nhdsWithin_iff]
    constructor
    · exact ((continuous_mul_left c).tendsto' 0 0 (mul_zero c)).mono_left nhdsWithin_le_nhds
    · filter_upwards [self_mem_nhdsWithin] with x hx
      exact ne_of_gt (mul_pos hc hx)
  have h1 : Tendsto (fun x : ℝ => Real.sin (c * x) / (c * x)) (𝓝[>] (0 : ℝ)) (𝓝 1) :=
    tendsto_sin_div_self.comp hmap
  have h2 := h1.mul_const (c / (1 + c))
  rw [one_mul] at h2
  refine Tendsto.congr' ?_ h2
  filter_upwards [self_mem_nhdsWithin] with x hx
  have hx0 : (x : ℝ) ≠ 0 := ne_of_gt hx
  have hc0 : c ≠ 0 := ne_of_gt hc
  have h1c0 : (1 + c) ≠ 0 := ne_of_gt h1c
  field_simp
  ring

/-- C3 helper: `u_NFW c` tends to `1` from the right at `0`. -/
theorem u_NFW_tendsto_one (c : ℝ) (hc : 0 < c) :
    Tendsto (u_NFW c) (𝓝[>] (0 : ℝ)) (𝓝 1) := by
  have h1c : (0 : ℝ) < 1 + c := by linarith
  have hden := den_pos c hc
  have hsin0 : Tendsto Real.sin (𝓝[>] (0 : ℝ)) (𝓝 0) :=
    (Real.continuous_sin.tendsto' 0 0 Real.sin_zero).mono_left nhdsWithin_le_nhds
  have hcos0 : Tendsto Real.cos (𝓝[>] (0 : ℝ)) (𝓝 1) :=
    (Real.continuous_cos.tendsto' 0 1 Real.cos_zero).mono_left nhdsWithin_le_nhds
  have hSi2 : Tendsto (fun x => Si ((1 + c) * x)) (𝓝[>] (0 : ℝ)) (𝓝 0) :=
    tendsto_Si_zero_right.comp (tendsto_const_mul_nhdsGT (1 + c) h1c)
  have hA : Tendsto (fun x => Real.sin x * (Si ((1 + c) * x) - Si x)) (𝓝[>] (0 : ℝ))
      (𝓝 0) := by
    have h := hsin0.mul (hSi2.sub tendsto_Si_zero_right)
    simpa using h
  have hB : Tendsto (fun x => Real.cos x * ciDiff c x) (𝓝[>] (0 : ℝ))
      (𝓝 (Real.log (1 + c))) := by
    have h := hcos0.mul (tendsto_ciDiff_zero_right c hc)
    simpa using h
  have hC := tendsto_sin_term_right c hc
  have hnum : Tendsto (fun x => Real.sin x * (Si ((1 + c) * x) - Si x)
      + Real.cos x * ciDiff c x - Real.sin (c * x) * 1 / ((1 + c) * x))
      (𝓝[>] (0 : ℝ)) (𝓝 (Real.log (1 + c) - c * 1 / (1 + c))) := by
    have h := (hA.add hB).sub hC
    rw [zero_add] at h
    have hval : Real.log (1 + c) - c / (1 + c) = Real.log (1 + c) - c * 1 / (1 + c) := by
      ring
    rw [hval] at h
    exact h
  have hfin := hnum.const_mul (1 / (Real.log (1 + c) - c * 1 / (1 + c)))
  have hval2 : 1 / (Real.log (1 + c) - c * 1 / (1 + c)) *
      (Real.log (1 + c) - c * 1 / (1 + c)) = 1 :=
    one_div_mul_cancel (ne_of_gt hden)
  rw [hval2] at hfin
  refine Tendsto.congr' ?_ hfin
  filter_upwards [] with x
  rw [u_NFW_def]

/-- Difference of sine integrals as a single tail integral. -/
theorem Si_diff_eq (c x : ℝ) :
    Si ((1 + c) * x) - Si x = ∫ t in x..(1 + c) * x, Real.sin t / t := by
  unfold Si
  rw [← intervalIntegral.integral_add_adjacent_intervals
    (intervalIntegrable_sin_div 0 x) (intervalIntegrable_sin_div x ((1 + c) * x))]
  ring

/-- For `x > 0` the cosine-integral difference is the tail integral of
`cos t / t`. -/
theorem ciDiff_eq_integral (c x : ℝ) (hc : 0 < c) (hx : 0 < x) :
    ciDiff c x = ∫ t in x..(1 + c) * x, Real.cos t / t := by
  have hxle : x ≤ (1 + c) * x := by nlinarith
  have hsub : Set.uIcc x ((1 + c) * x) ⊆ Set.Ioi (0 : ℝ) := by
    rw [Set.uIcc_of_le hxle]
    intro t ht
    exact lt_of_lt_of_le hx ht.1
  have hcont1 : ContinuousOn (fun t : ℝ => Real.cos t / t) (Set.uIcc x ((1 + c) * x)) :=
    Real.continuous_cos.continuousOn.div continuous_id.continuousOn
      (fun t ht => ne_of_gt (hsub ht))
  have hcont2 : ContinuousOn (fun t : ℝ => 1 / t) (Set.uIcc x ((1 + c) * x)) :=
    continuous_const.continuousOn.div continuous_id.continuousOn
      (fun t ht => ne_of_gt (hsub ht))
  have key : (∫ t in x..(1 + c) * x, (Real.cos t - 1) / t)
      = (∫ t in x..(1 + c) * x, Real.cos t / t) - ∫ t in x..(1 + c) * x, 1 / t := by
    rw [← intervalIntegral.integral_sub hcont1.intervalIntegrable
      hcont2.intervalIntegrable]
    apply intervalIntegral.integral_congr
    intro t _
    show (Real.cos t - 1) / t = Real.cos t / t - 1 / t
    rw [sub_div]
  have hlog : (∫ t in x..(1 + c) * x, 1 / t) = Real.log (1 + c) := by
    rw [integral_one_div (fun h0 => lt_irrefl 0 (Set.mem_Ioi.mp (hsub h0)))]
    rw [mul_div_assoc, div_self (ne_of_gt hx), mul_one]
  unfold ciDiff
  rw [key, hlog]
  ring

/-- Integration-by-parts bound for oscillatory tails: if `v` has
derivative `v'` and `|v| ≤ 1`, then `|∫ v'(t)/t dt|` over `[a, b]` with
`0 < a ≤ b` is at most `2/a`. -/
theorem osc_tail (v v' : ℝ → ℝ) (hv : ∀ t, HasDerivAt v (v' t) t)
    (hb1 : ∀ t, |v t| ≤ 1) (hcont : Continuous v') {a b : ℝ}
    (ha : 0 < a) (hab : a ≤ b) :
    ‖∫ t in a..b, v' t / t‖ ≤ 2 / a := by
  have hbpos : 0 < b := lt_of_lt_of_le ha hab
  have hsub : Set.uIcc a b ⊆ Set.Ioi (0 : ℝ) := by
    rw [Set.uIcc_of_le hab]
    intro t ht
    exact lt_of_lt_of_le ha ht.1
  have hre : ∀ t ∈ Set.uIcc a b, v' t / t = t⁻¹ * v' t := by
    intro t _
    rw [div_eq_mul_inv, mul_comm]
  rw [intervalIntegral.integral_congr hre]
  have hu : ∀ t ∈ Set.uIcc a b, HasDerivAt (fun s : ℝ => s⁻¹) (-(t ^ 2)⁻¹) t :=
    fun t ht => hasDerivAt_inv (ne_of_gt (hsub ht))
  have hv2 : ∀ t ∈ Set.uIcc a b, HasDerivAt v (v' t) t := fun t _ => hv t
  have hsq : ContinuousOn (fun t : ℝ => (t ^ 2)⁻¹) (Set.uIcc a b) := by
    apply ContinuousOn.inv₀
    · exact (continuous_pow 2).continuousOn
    · exact fun t ht => pow_ne_zero 2 (ne_of_gt (hsub ht))
  have hu'int : IntervalIntegrable (fun t : ℝ => -(t ^ 2)⁻¹)
      MeasureTheory.volume a b := hsq.neg.intervalIntegrable
  have hv'int : IntervalIntegrable v' MeasureTheory.volume a b :=
    hcont.intervalIntegrable a b
  have hibp := intervalIntegral.integral_mul_deriv_eq_deriv_mul hu hv2 hu'int hv'int
  rw [hibp]
  have heval : (∫ t in a..b, (t ^ 2)⁻¹) = a⁻¹ - b⁻¹ := by
    have hz : ∀ t ∈ Set.uIcc a b, (t ^ 2)⁻¹ = t ^ (-2 : ℤ) := by
      intro t _
      rw [zpow_neg, zpow_two, sq]
    rw [intervalIntegral.integral_congr hz]
    rw [integral_zpow
      (Or.inr ⟨by norm_num, fun h0 => lt_irrefl 0 (Set.mem_Ioi.mp (hsub h0))⟩)]
    norm_num
    ring
  have hint2 : ‖∫ t in a..b, -(t ^ 2)⁻¹ * v t‖ ≤ a⁻¹ - b⁻¹ := by
    have hbound : ∀ᵐ t ∂(MeasureTheory.volume.restrict (Set.uIoc a b)),
        ‖-(t ^ 2)⁻¹ * v t‖ ≤ (t ^ 2)⁻¹ := by
      apply MeasureTheory.ae_of_all
      intro t
      rw [norm_mul, norm_neg, Real.norm_eq_abs, Real.norm_eq_abs,
        abs_of_nonneg (inv_nonneg.mpr (sq_nonneg t))]
      calc (t ^ 2)⁻¹ * |v t| ≤ (t ^ 2)⁻¹ * 1 :=
            mul_le_mul_of_nonneg_left (hb1 t) (inv_nonneg.mpr (sq_nonneg t))
        _ = (t ^ 2)⁻¹ := mul_one _
    have hgint : IntervalIntegrable (fun t : ℝ => (t ^ 2)⁻¹)
        MeasureTheory.volume a b := hsq.intervalIntegrable
    have h := intervalIntegral.norm_integral_le_of_norm_le hbound hgint
    rw [heval] at h
    calc ‖∫ t in a..b, -(t ^ 2)⁻¹ * v t‖ ≤ |a⁻¹ - b⁻¹| := h
      _ = a⁻¹ - b⁻¹ := abs_of_nonneg
          (sub_nonneg.mpr (inv_anti₀ ha hab))
  have hterm1 : ‖b⁻¹ * v b‖ ≤ b⁻¹ := by
    rw [norm_mul, Real.norm_eq_abs, Real.norm_eq_abs, abs_of_pos (inv_pos.mpr hbpos)]
    calc b⁻¹ * |v b| ≤ b⁻¹ * 1 :=
          mul_le_mul_of_nonneg_left (hb1 b) (le_of_lt (inv_pos.mpr hbpos))
      _ = b⁻¹ := mul_one _
  have hterm2 : ‖a⁻¹ * v a‖ ≤ a⁻¹ := by
    rw [norm_mul, Real.norm_eq_abs, Real.norm_eq_abs, abs_of_pos (inv_pos.mpr ha)]
    calc a⁻¹ * |v a| ≤ a⁻¹ * 1 :=
          mul_le_mul_of_nonneg_left (hb1 a) (le_of_lt (inv_pos.mpr ha))
      _ = a⁻¹ := mul_one _
  calc ‖b⁻¹ * v b - a⁻¹ * v a - ∫ t in a..b, -(t ^ 2)⁻¹ * v t‖
      ≤ ‖b⁻¹ * v b - a⁻¹ * v a‖ + ‖∫ t in a..b, -(t ^ 2)⁻¹ * v t‖ := norm_sub_le _ _
    _ ≤ (‖b⁻¹ * v b‖ + ‖a⁻¹ * v a‖) + ‖∫ t in a..b, -(t ^ 2)⁻¹ * v t‖ :=
        add_le_add_right (norm_sub_le _ _) _
    _ ≤ (b⁻¹ + a⁻¹) + (a⁻¹ - b⁻¹) :=
        add_le_add (add_le_add hterm1 hterm2) hint2
    _ = 2 / a := by
        rw [div_eq_mul_inv]
        ring

/-- C3 helper: `u_NFW c` tends to `0` at infinity. -/
theorem tendsto_u_NFW_atTop (c : ℝ) (hc : 0 < c) :
    Tendsto (u_NFW c) atTop (𝓝 0) := by
  have h1c : (0 : ℝ) < 1 + c := by linarith
  have hdcos : ∀ t : ℝ, HasDerivAt (fun s => -Real.cos s) (Real.sin t) t := by
    intro t
    have h := (Real.hasDerivAt_cos t).neg
    simpa using h
  have habs_neg_cos : ∀ t : ℝ, |(fun s => -Real.cos s) t| ≤ 1 := by
    intro t
    simpa using Real.abs_cos_le_one t
  have hnum : Tendsto (fun x => Real.sin x * (Si ((1 + c) * x) - Si x)
      + Real.cos x * ciDiff c x - Real.sin (c * x) * 1 / ((1 + c) * x)) atTop (𝓝 0) := by
    apply squeeze_zero_norm' (a := fun x => 2 / x + 2 / x + 1 / ((1 + c) * x))
    · filter_upwards [eventually_gt_atTop (0 : ℝ)] with x hx
      have hxle : x ≤ (1 + c) * x := by nlinarith
      have hA : ‖Real.sin x * (Si ((1 + c) * x) - Si x)‖ ≤ 2 / x := by
        rw [Si_diff_eq, norm_mul]
        have h1 := osc_tail (fun s => -Real.cos s) Real.sin hdcos habs_neg_cos
          Real.continuous_sin hx hxle
        calc ‖Real.sin x‖ * ‖∫ t in x..(1 + c) * x, Real.sin t / t‖
            ≤ 1 * (2 / x) := by
              apply mul_le_mul ?_ h1 (norm_nonneg _) zero_le_one
              rw [Real.norm_eq_abs]
              exact Real.abs_sin_le_one x
          _ = 2 / x := one_mul _
      have hB : ‖Real.cos x * ciDiff c x‖ ≤ 2 / x := by
        rw [ciDiff_eq_integral c x hc hx, norm_mul]
        have h1 := osc_tail Real.sin Real.cos Real.hasDerivAt_sin
          (fun t => Real.abs_sin_le_one t) Real.continuous_cos hx hxle
        calc ‖Real.cos x‖ * ‖∫ t in x..(1 + c) * x, Real.cos t / t‖
            ≤ 1 * (2 / x) := by
              apply mul_le_mul ?_ h1 (norm_nonneg _) zero_le_one
              rw [Real.norm_eq_abs]
              exact Real.abs_cos_le_one x
          _ = 2 / x := one_mul _
      have hC : ‖Real.sin (c * x) * 1 / ((1 + c) * x)‖ ≤ 1 / ((1 + c) * x) := by
        rw [norm_div, norm_mul, norm_one, mul_one, Real.norm_eq_abs, Real.norm_eq_abs,
          abs_of_pos (mul_pos h1c hx)]
        exact (div_le_div_iff_of_pos_right (mul_pos h1c hx)).mpr (Real.abs_sin_le_one _)
      calc ‖Real.sin x * (Si ((1 + c) * x) - Si x) + Real.cos x * ciDiff c x
            - Real.sin (c * x) * 1 / ((1 + c) * x)‖
          ≤ ‖Real.sin x * (Si ((1 + c) * x) - Si x) + Real.cos x * ciDiff c x‖
            + ‖Real.sin (c * x) * 1 / ((1 + c) * x)‖ := norm_sub_le _ _
        _ ≤ (‖Real.sin x * (Si ((1 + c) * x) - Si x)‖ + ‖Real.cos x * ciDiff c x‖)
            + ‖Real.sin (c * x) * 1 / ((1 + c) * x)‖ :=
            add_le_add_right (norm_add_le _ _) _
        _ ≤ 2 / x + 2 / x + 1 / ((1 + c) * x) :=
            add_le_add (add_le_add hA hB) hC
    · have t1 : Tendsto (fun x : ℝ => 2 / x) atTop (𝓝 0) :=
        tendsto_const_nhds.div_atTop tendsto_id
      have t3 : Tendsto (fun x : ℝ => 1 / ((1 + c) * x)) atTop (𝓝 0) :=
        tendsto_const_nhds.div_atTop (Tendsto.const_mul_atTop h1c tendsto_id)
      have h := (t1.add t1).add t3
      simpa using h
  have h := hnum.const_mul (1 / (Real.log (1 + c) - c * 1 / (1 + c)))
  rw [mul_zero] at h
  refine Tendsto.congr' ?_ h
  filter_upwards [] with x
  rw [u_NFW_def]

/-- C3 (amended): for every concentration `c > 0`, the Fourier-space
NFW profile tends to `1` as `x` tends to `0` from the right and tends
to `0` as `x` tends to infinity; at `x = 0` itself the closed form is
singular (`0/0`), so `u_NFW(c, 0)` is not `1`. -/
theorem u_NFW_limits :
    ∀ c : ℝ, 0 < c →
      Tendsto (u_NFW c) (𝓝[>] (0 : ℝ)) (𝓝 1) ∧ Tendsto (u_NFW c) atTop (𝓝 0) :=
  fun c hc => ⟨u_NFW_tendsto_one c hc, tendsto_u_NFW_atTop c hc⟩

/-- Witness for C3 at the concrete concentration `c = 1`. -/
theorem u_NFW_limits_witness :
    (0 : ℝ) < 1
    ∧ (Tendsto (u_NFW 1) (𝓝[>] (0 : ℝ)) (𝓝 1) ∧ Tendsto (u_NFW 1) atTop (𝓝 0)) :=
  ⟨one_pos, u_NFW_limits 1 one_pos⟩
